import Mathlib

/-!
A verification development for the `routes` HTTP router (routes.go).

The code is shallowly embedded: every definition below mirrors a function of
the source file (or the documented behaviour of one of its standard-library
collaborators, marked as such).  Strings are handled at the level of their
character lists; machine integers of the source appear as `Nat`.

Contents:
* character-list utilities modelling `strings.Split` / `strings.Join`;
* a small regular-expression engine and pattern parser modelling the subset of
  Go `regexp` used by route templates (literal characters, character classes,
  the dot, one-or-more repetition of a class, and capturing groups), with
  Go's leftmost, preference-order (greedy-first) match semantics;
* the query-string layer of `net/url` (`ParseQuery`, `Values.Encode`,
  escaping) as used by the dispatcher;
* the response wrapper `responseWriter` together with a model of the hosting
  server's response sink (header snapshot taken when the header block is
  written, later header mutations not delivered);
* route compilation (`AddRoute`), dispatch (`ServeHTTP`), the OPTIONS
  aggregation (`optionsRequest`), the content-negotiation helper
  (`ServeFormatted`) and the static-file path computation (`Static`'s
  handler) with `path/filepath` cleaning and joining.
-/

set_option autoImplicit false

namespace Routes

/-! ## Character-list utilities -/

/-- Splits a character list at every occurrence of the separator character;
models Go `strings.Split` with a one-character separator (always returns at
least one piece; separators are not part of the pieces). -/
def splitOnCharAux (sep : Char) (cur : List Char) : List Char → List (List Char)
  | [] => [cur.reverse]
  | c :: cs =>
    if c = sep then cur.reverse :: splitOnCharAux sep [] cs
    else splitOnCharAux sep (c :: cur) cs

/-- Top-level entry of `splitOnCharAux` with an empty accumulator. -/
def splitOnChar (sep : Char) (s : List Char) : List (List Char) :=
  splitOnCharAux sep [] s

/-- Joins pieces with a separator character between consecutive pieces;
models Go `strings.Join` with a one-character separator. -/
def joinWith (sep : Char) : List (List Char) → List Char
  | [] => []
  | [x] => x
  | x :: y :: rest => x ++ sep :: joinWith sep (y :: rest)

/-! ## Regular-expression engine

Models the behaviour of Go's `regexp` package on the sub-language that route
templates produce: sequences of literal characters, character classes
(`[...]`, `[^...]`, with ranges), `.`, one-or-more repetition `+` of a
single-character atom, and capturing groups.  Matching follows Go's
preference semantics: the match starts as early as possible, and repetition
is greedy (longer repetitions are preferred). -/

/-- One item of a character class: a single character or an inclusive range. -/
inductive ClsItem where
  | single (c : Char)
  | range (lo hi : Char)
deriving DecidableEq

/-- Whether a class item accepts a character. -/
def ClsItem.test : ClsItem → Char → Bool
  | .single c, x => x == c
  | .range lo hi, x => decide (lo ≤ x) && decide (x ≤ hi)

/-- A single-character atom: the dot (any character except newline) or a
character class, possibly negated. -/
inductive CharCls where
  | any
  | cset (neg : Bool) (items : List ClsItem)
deriving DecidableEq

/-- Whether the atom accepts a character. -/
def CharCls.test : CharCls → Char → Bool
  | .any, x => x != '\n'
  | .cset neg items, x =>
    if neg then !(items.any (ClsItem.test · x)) else items.any (ClsItem.test · x)

/-- Abstract syntax of the regular-expression subset. -/
inductive Regex where
  | eps
  | ch (cls : CharCls)
  | plus (cls : CharCls)
  | group (r : Regex)
  | cat (a b : Regex)

/-- Length of the maximal prefix of characters accepted by the atom. -/
def countPrefix (cls : CharCls) : List Char → Nat
  | [] => 0
  | c :: cs => if cls.test c then countPrefix cls cs + 1 else 0

/-- Backtracking matcher.  `Regex.run r s` returns, in preference order
(greedy repetitions first), every way `r` can match a prefix of `s`: the list
of captured-group texts (in capture order) paired with the remaining input. -/
def Regex.run : Regex → List Char → List (List (List Char) × List Char)
  | .eps, s => [([], s)]
  | .ch cls, s =>
    match s with
    | [] => []
    | c :: cs => if cls.test c then [([], cs)] else []
  | .plus cls, s =>
    let n := countPrefix cls s
    (List.range n).map (fun i => ([], s.drop (n - i)))
  | .group r, s =>
    (Regex.run r s).map (fun gr => (s.take (s.length - gr.2.length) :: gr.1, gr.2))
  | .cat a b, s =>
    (Regex.run a s).flatMap (fun g1 =>
      (Regex.run b g1.2).map (fun g2 => (g1.1 ++ g2.1, g2.2)))

/-- Leftmost preferred match: tries each start position from the left and
returns the matched text together with the captured sub-matches; models
`Regexp.FindStringSubmatch` (`none` models a nil result).  The matched text is
returned so that its length can be compared with the input's. -/
def regexFind (r : Regex) : List Char → Option (List Char × List (List Char))
  | [] =>
    match Regex.run r [] with
    | gr :: _ => some ([], gr.1)
    | [] => none
  | c :: cs =>
    match Regex.run r (c :: cs) with
    | gr :: _ => some ((c :: cs).take ((c :: cs).length - gr.2.length), gr.1)
    | [] => regexFind r cs

/-! ## Pattern parser

Models `regexp.Compile` on the supported sub-language.  A pattern using a
construct outside the sub-language is not modelled and parses to `none`;
every pattern appearing in the claims is inside the sub-language. -/

/-- Parses the items of a character class after the opening bracket (and the
optional negation marker), up to and including the closing bracket. -/
def parseClassItems : List Char → Option (List ClsItem × List Char)
  | [] => none
  | ']' :: rest => some ([], rest)
  | a :: '-' :: b :: rest =>
    if b = ']' then some ([ClsItem.single a, ClsItem.single '-'], rest)
    else (parseClassItems rest).map (fun ir => (ClsItem.range a b :: ir.1, ir.2))
  | a :: rest => (parseClassItems rest).map (fun ir => (ClsItem.single a :: ir.1, ir.2))

/-- Characters with a special meaning that a literal atom may not carry. -/
def metaChar (c : Char) : Bool :=
  c == '*' || c == '+' || c == '?' || c == '|' || c == '{' ||
  c == '}' || c == '(' || c == ')' || c == '[' || c == '^' ||
  c == '$' || c == '\\'

/-- Parses a sequence of atoms (each optionally followed by a one-or-more
repetition) until a closing parenthesis or the end of the input.  The fuel
argument bounds the recursion depth; one unit per consumed character
suffices. -/
def parseSeq : Nat → List Char → Option (Regex × List Char)
  | 0, _ => none
  | _ + 1, [] => some (Regex.eps, [])
  | _ + 1, ')' :: rest => some (Regex.eps, ')' :: rest)
  | fuel + 1, '(' :: rest =>
    match parseSeq fuel rest with
    | some (inner, ')' :: rest2) =>
      match rest2 with
      | '+' :: _ => none
      | '*' :: _ => none
      | '?' :: _ => none
      | _ =>
        match parseSeq fuel rest2 with
        | some (tl, rest3) => some (Regex.cat (Regex.group inner) tl, rest3)
        | none => none
    | _ => none
  | fuel + 1, '[' :: rest =>
    let negRest : Bool × List Char :=
      match rest with
      | '^' :: t => (true, t)
      | _ => (false, rest)
    match parseClassItems negRest.2 with
    | none => none
    | some (items, rest2) =>
      let cls := CharCls.cset negRest.1 items
      match rest2 with
      | '+' :: rest3 =>
        match parseSeq fuel rest3 with
        | some (tl, rest4) => some (Regex.cat (Regex.plus cls) tl, rest4)
        | none => none
      | _ =>
        match parseSeq fuel rest2 with
        | some (tl, rest3) => some (Regex.cat (Regex.ch cls) tl, rest3)
        | none => none
  | fuel + 1, '.' :: rest =>
    match rest with
    | '+' :: rest2 =>
      match parseSeq fuel rest2 with
      | some (tl, rest3) => some (Regex.cat (Regex.plus CharCls.any) tl, rest3)
      | none => none
    | _ =>
      match parseSeq fuel rest with
      | some (tl, rest2) => some (Regex.cat (Regex.ch CharCls.any) tl, rest2)
      | none => none
  | fuel + 1, c :: rest =>
    if metaChar c then none
    else
      let cls := CharCls.cset false [ClsItem.single c]
      match rest with
      | '+' :: rest2 =>
        match parseSeq fuel rest2 with
        | some (tl, rest3) => some (Regex.cat (Regex.plus cls) tl, rest3)
        | none => none
      | _ =>
        match parseSeq fuel rest with
        | some (tl, rest2) => some (Regex.cat (Regex.ch cls) tl, rest2)
        | none => none

/-- Models `regexp.Compile` on the supported sub-language: the whole pattern
must parse as one sequence. -/
def regexpCompile (pat : List Char) : Option Regex :=
  match parseSeq (pat.length + 1) pat with
  | some (r, []) => some r
  | _ => none

/-! ## Query strings

Models the pieces of `net/url` used by the dispatcher: `URL.Query()`
(which is `ParseQuery(RawQuery)`), `Values.Add`, and `Values.Encode`.
`url.Values` is a map from keys to lists of values; it is modelled as an
association list with unique keys (the iteration order of the Go map is
irrelevant because `Encode` sorts the keys). -/

/-- Hexadecimal digit characters, upper case, as `net/url` emits them. -/
def hexDigit (n : Nat) : Char :=
  (("0123456789ABCDEF").data.getD n '0')

/-- UTF-8 byte sequence of a character (the byte-level view Go strings use). -/
def utf8Bytes (c : Char) : List Nat :=
  let n := c.toNat
  if n < 128 then [n]
  else if n < 2048 then [192 + n / 64, 128 + n % 64]
  else if n < 65536 then [224 + n / 4096, 128 + (n / 64) % 64, 128 + n % 64]
  else [240 + n / 262144, 128 + (n / 4096) % 64, 128 + (n / 64) % 64, 128 + n % 64]

/-- Characters never escaped in a query component (alphanumerics and
the four unreserved marks), per `url.shouldEscape`. -/
def isUnreservedQuery (c : Char) : Bool :=
  c.isAlphanum || c == '-' || c == '_' || c == '.' || c == '~'

/-- Escapes one character for a query component: unreserved characters pass
through, space becomes a plus sign, everything else is percent-encoded
byte by byte. -/
def escapeChar (c : Char) : List Char :=
  if isUnreservedQuery c then [c]
  else if c = ' ' then ['+']
  else (utf8Bytes c).flatMap (fun b => ['%', hexDigit (b / 16), hexDigit (b % 16)])

/-- Models `url.QueryEscape`. -/
def queryEscape (s : String) : String :=
  String.mk (s.data.flatMap escapeChar)

/-- Value of a hexadecimal digit character, if it is one. -/
def hexVal (c : Char) : Option Nat :=
  if '0' ≤ c ∧ c ≤ '9' then some (c.toNat - 48)
  else if 'A' ≤ c ∧ c ≤ 'F' then some (c.toNat - 55)
  else if 'a' ≤ c ∧ c ≤ 'f' then some (c.toNat - 87)
  else none

/-- Models `url.QueryUnescape` at the character level: percent escapes are
decoded, plus becomes space, a malformed escape is an error (`none`).
Decoded bytes are taken as character codes; this is exact for the ASCII
escapes the claims exercise. -/
def queryUnescapeData : List Char → Option (List Char)
  | [] => some []
  | '%' :: h1 :: h2 :: rest =>
    match hexVal h1, hexVal h2 with
    | some a, some b => (queryUnescapeData rest).map (fun r => Char.ofNat (16 * a + b) :: r)
    | _, _ => none
  | ['%'] => none
  | ['%', _] => none
  | '+' :: rest => (queryUnescapeData rest).map (fun r => ' ' :: r)
  | c :: rest => (queryUnescapeData rest).map (fun r => c :: r)

/-- The (unordered) multimap of query keys to value lists, modelled as an
association list with unique keys. -/
abbrev QVals := List (String × List String)

/-- Models `Values.Add`: appends the value to the key's list. -/
def qAdd : QVals → String → String → QVals
  | [], k, v => [(k, [v])]
  | (k', vs) :: rest, k, v =>
    if k' = k then (k', vs ++ [v]) :: rest else (k', vs) :: qAdd rest k v

/-- Models indexing the `url.Values` map (missing key gives the empty list). -/
def qGet : QVals → String → List String
  | [], _ => []
  | (k', vs) :: rest, k => if k' = k then vs else qGet rest k

/-- Splits a pair at the first occurrence of the separator; models
`strings.Cut` (when the separator is absent the second piece is empty). -/
def cutAt (sep : Char) : List Char → List Char × List Char
  | [] => ([], [])
  | c :: cs =>
    if c = sep then ([], cs)
    else
      let r := cutAt sep cs
      (c :: r.1, r.2)

/-- Processes one `key=value` piece of a query string exactly as
`url.ParseQuery` does: empty pieces and pieces containing a semicolon are
skipped, both sides are unescaped (a failed unescape skips the pair), and
the pair is added to the map. -/
def parsePair (vs : QVals) (kv : List Char) : QVals :=
  if kv = [] then vs
  else if kv.contains ';' then vs
  else
    let kvp := cutAt '=' kv
    match queryUnescapeData kvp.1, queryUnescapeData kvp.2 with
    | some k, some v => qAdd vs (String.mk k) (String.mk v)
    | _, _ => vs

/-- Models `url.ParseQuery` (and hence `URL.Query()`). -/
def parseQuery (s : String) : QVals :=
  (splitOnChar '&' s.data).foldl parsePair []

/-- Lexicographic order on character lists by code point; models the
byte-wise order Go compares strings with (identical on the ASCII data the
router handles). -/
def charListLe : List Char → List Char → Bool
  | [], _ => true
  | _ :: _, [] => false
  | a :: as, b :: bs =>
    if a.toNat < b.toNat then true
    else if b.toNat < a.toNat then false
    else charListLe as bs

/-- String comparison used for sorting. -/
def strLe (s t : String) : Bool := charListLe s.data t.data

/-- Insertion step of an ascending insertion sort on strings. -/
def insertSorted (s : String) : List String → List String
  | [] => [s]
  | t :: ts => if strLe s t then s :: t :: ts else t :: insertSorted s ts

/-- Ascending lexicographic sort; models `sort.Strings` (and the key sort
performed by `Values.Encode`). -/
def sortStrings (l : List String) : List String :=
  l.foldr insertSorted []

/-- Models `Values.Encode`: keys sorted, each value escaped and emitted as
`key=value`, pairs joined with ampersands. -/
def encodeQ (vs : QVals) : String :=
  String.intercalate ("&")
    ((sortStrings (vs.map Prod.fst)).flatMap (fun k =>
      (qGet vs k).map (fun v => queryEscape k ++ ("=") ++ queryEscape v)))

/-! ## Response writer

`responseWriter` (routes.go lines 261 to 291) wraps the hosting server's
`http.ResponseWriter`.  The sink is modelled with the documented `net/http`
semantics: the header block is sent at the first `WriteHeader` or `Write`,
snapshotting the header map at that moment; later mutations of the map are
not delivered.  The process-wide mutable `DefaultAccessControlOrigin` is
modelled as the explicit argument `acao` (its default value is `"*"`). -/

/-- A response header map (keys are given in canonical form already). -/
abbrev Header := List (String × String)

/-- Models `http.Header.Set`: replaces the key's value or appends the key. -/
def headerSet : Header → String → String → Header
  | [], k, v => [(k, v)]
  | (k', v') :: rest, k, v =>
    if k' = k then (k, v) :: rest else (k', v') :: headerSet rest k v

/-- Reads a key from a header map. -/
def headerGet : Header → String → Option String
  | [], _ => none
  | (k', v') :: rest, k => if k' = k then some v' else headerGet rest k

/-- Model of the hosting server's response sink (the raw
`http.ResponseWriter`): the live header map, the header block once sent
(status code and the header snapshot actually delivered), and the body
chunks written. -/
structure Sink where
  headers : Header
  sent : Option (Nat × Header)
  body : List (List Char)

/-- The sink's `WriteHeader`: sends the header block with the current header
map if it was not sent yet (a second call changes nothing). -/
def Sink.writeHeader (s : Sink) (code : Nat) : Sink :=
  match s.sent with
  | some _ => s
  | none => { s with sent := some (code, s.headers) }

/-- The sink's `Write`: sends the header block with status 200 first if it
was not sent yet, then appends the chunk to the body. -/
def Sink.write (s : Sink) (p : List Char) : Sink :=
  let s1 :=
    match s.sent with
    | some _ => s
    | none => { s with sent := some (200, s.headers) }
  { s1 with body := s1.body ++ [p] }

/-- The response wrapper of routes.go: the wrapped sink plus the `started`,
`size` and `status` fields. -/
structure responseWriter where
  sink : Sink
  started : Bool
  size : Nat
  status : Nat

/-- A fresh wrapper around a fresh sink, as built in `ServeHTTP` (all
tracked fields at their zero values). -/
def newResponseWriter : responseWriter :=
  { sink := { headers := [], sent := none, body := [] },
    started := false, size := 0, status := 0 }

/-- `responseWriter.Write` (lines 275 to 281): records the size, sets
`started`, sets the `Content-Length` and `Access-Control-Allow-Origin`
headers, then delegates the write to the sink. -/
def responseWriter.Write (acao : String) (w : responseWriter) (p : List Char) :
    responseWriter :=
  let w1 := { w with size := p.length, started := true }
  let hs := headerSet (headerSet w1.sink.headers ("Content-Length") (toString p.length))
    ("Access-Control-Allow-Origin") acao
  { w1 with sink := Sink.write { w1.sink with headers := hs } p }

/-- `responseWriter.WriteHeader` (lines 285 to 291): records the status,
sets `started`, delegates the status to the sink, and only then sets the
`Content-Length` and `Access-Control-Allow-Origin` headers (this order is
the source's). -/
def responseWriter.WriteHeader (acao : String) (w : responseWriter) (code : Nat) :
    responseWriter :=
  let w1 := { w with status := code, started := true }
  let s1 := Sink.writeHeader w1.sink code
  let hs := headerSet (headerSet s1.headers ("Content-Length") ("0"))
    ("Access-Control-Allow-Origin") acao
  { w1 with sink := { s1 with headers := hs } }

/-- One observable action a handler can perform on the wrapper it is given:
a body write, a status write, or a direct mutation of the header map
(through the pass-through `Header()`). -/
inductive WAction where
  | write (p : List Char)
  | writeHeader (code : Nat)
  | setHeader (k v : String)

/-- Interpretation of one handler action on the wrapper. -/
def applyAction (acao : String) (w : responseWriter) : WAction → responseWriter
  | .write p => responseWriter.Write acao w p
  | .writeHeader c => responseWriter.WriteHeader acao w c
  | .setHeader k v =>
    { w with sink := { w.sink with headers := headerSet w.sink.headers k v } }

/-- Interpretation of a handler's whole action sequence. -/
def applyActions (acao : String) (acts : List WAction) (w : responseWriter) :
    responseWriter :=
  acts.foldl (applyAction acao) w

/-- Body text written by the standard not-found fallback.  Modelled from the
documented behaviour of `http.NotFound` (`http.Error` with status 404). -/
def notFoundBody : List Char := ("404 page not found\n").data

/-- Actions performed by `http.NotFound` on the wrapper it is handed.
Modelled from the documented behaviour of `http.Error`. -/
def notFoundActions : List WAction :=
  [WAction.setHeader ("Content-Type") ("text/plain; charset=utf-8"),
   WAction.setHeader ("X-Content-Type-Options") ("nosniff"),
   WAction.writeHeader 404,
   WAction.write notFoundBody]

/-! ## Routes and dispatch -/

/-- HTTP method constant of routes.go. -/
def CONNECT : String := "CONNECT"
/-- HTTP method constant of routes.go. -/
def DELETE : String := "DELETE"
/-- HTTP method constant of routes.go. -/
def GET : String := "GET"
/-- HTTP method constant of routes.go. -/
def HEAD : String := "HEAD"
/-- HTTP method constant of routes.go. -/
def OPTIONS : String := "OPTIONS"
/-- HTTP method constant of routes.go. -/
def PATCH : String := "PATCH"
/-- HTTP method constant of routes.go. -/
def POST : String := "POST"
/-- HTTP method constant of routes.go. -/
def PUT : String := "PUT"
/-- HTTP method constant of routes.go. -/
def TRACE : String := "TRACE"

/-- The slice of an inbound request the router reads and rewrites: the
method, the URL path, and the raw query string. -/
structure Request where
  method : String
  path : String
  rawQuery : String
deriving DecidableEq

/-- A registered route: method, compiled pattern, the position-to-name
parameter map (position `i` holds the name of capture `i`; a missing
position reads as the empty string, like a missing key of a Go map), and
the handler.  The handler is modelled by the actions it performs on the
wrapper when invoked with the (rewritten) request. -/
structure Route where
  method : String
  regex : Regex
  params : List String
  handler : Request → List WAction

/-- The default sub-pattern substituted for a named parameter segment. -/
def paramExpr : List Char := ("([^/]+)").data

/-- Compiles one segment of a route template exactly as `AddRoute` does: a
segment starting with the colon marker becomes its inline override (the text
from the first open parenthesis onward) or the default sub-pattern, and the
recorded parameter name is the segment text before the parenthesis —
including the leading colon, exactly as the source keeps it.  Other segments
pass through. -/
def compileSegment (part : List Char) : List Char × Option String :=
  if part.head? = some ':' then
    match part.findIdx? (· == '(') with
    | some i => (part.drop i, some (String.mk (part.take i)))
    | none => (paramExpr, some (String.mk part))
  else (part, none)

/-- Compiles a route template: split on slashes, transform each segment,
rejoin; returns the compiled pattern text and the parameter names in
encounter order (routes.go lines 64 to 90). -/
def compileTemplate (pattern : String) : List Char × List String :=
  let pieces := (splitOnChar '/' pattern.data).map compileSegment
  (joinWith '/' (pieces.map Prod.fst), pieces.filterMap Prod.snd)

/-- `RouteMux.AddRoute`: compiles the template and appends the new route.
`none` models the fatal registration-time abort the source performs when
the compiled pattern is not a valid regular expression. -/
def AddRoute (routes : List Route) (method : String) (pattern : String)
    (handler : Request → List WAction) : Option (List Route) :=
  let cp := compileTemplate pattern
  match regexpCompile cp.1 with
  | none => none
  | some re =>
    some (routes ++ [{ method := method, regex := re, params := cp.2, handler := handler }])

/-- The match test the dispatcher applies to one route (routes.go lines 168
to 179, repeated at lines 231 to 242): the pattern must find a match in the
path and the matched text must have the same length as the whole path. -/
def routeFullyMatches (rt : Route) (path : String) : Bool :=
  match regexFind rt.regex path.data with
  | none => false
  | some m => m.1.length == path.data.length

/-- The sub-matches (captured parameter values) of a route on a path. -/
def submatchesOf (rt : Route) (path : String) : List (List Char) :=
  match regexFind rt.regex path.data with
  | some m => m.2
  | none => []

/-- The scan of the route list performed by `ServeHTTP`: first route whose
method equals the request method and whose pattern fully matches the path,
together with its registration index. -/
def firstMatch : List Route → String → String → Option (Nat × Route)
  | [], _, _ => none
  | rt :: rest, method, path =>
    if rt.method == method && routeFullyMatches rt path then some (0, rt)
    else (firstMatch rest method path).map (fun ir => (ir.1 + 1, ir.2))

/-- The request rewrite performed on a match (routes.go lines 181 to 188):
each captured sub-match is added to the parsed query values under the name
at its position in the parameter map, and the raw query is replaced by the
re-encoding of the resulting values. -/
def injectParams (rt : Route) (r : Request) : Request :=
  let values := parseQuery r.rawQuery
  let values := ((submatchesOf rt r.path).enum).foldl
    (fun vs im => qAdd vs (rt.params.getD im.1 ("")) (String.mk im.2)) values
  { r with rawQuery := encodeQ values }

/-- The method list collected by `optionsRequest` (routes.go lines 223 to
249): OPTIONS first, then for every route whose pattern fully matches the
path (any method) its method, a matching GET route also contributing HEAD. -/
def optionsScan (routes : List Route) (path : String) : List String :=
  routes.foldl
    (fun options rt =>
      if routeFullyMatches rt path then
        let options1 := options ++ [rt.method]
        if rt.method == GET then options1 ++ [HEAD] else options1
      else options)
    [OPTIONS]

/-- The value `optionsRequest` stores in the `Public` header: the collected
method list sorted and joined with comma-space. -/
def optionsPublicValue (routes : List Route) (path : String) : String :=
  String.intercalate (", ") (sortStrings (optionsScan routes path))

/-- `RouteMux.optionsRequest` (routes.go lines 221 to 255): writes status
200 through the wrapper, then sets the `Public` header to the joined method
list (in that order, as the source does). -/
def optionsRequest (routes : List Route) (acao : String) (w : responseWriter)
    (path : String) : responseWriter :=
  let w1 := responseWriter.WriteHeader acao w 200
  { w1 with sink := { w1.sink with
      headers := headerSet w1.sink.headers ("Public") (optionsPublicValue routes path) } }

/-- Outcome of a dispatch: the final wrapper, the registration index of the
route whose handler was invoked (if any), and the request exactly as the
handler received it (if any). -/
structure ServeResult where
  w : responseWriter
  invoked : Option Nat
  handlerReq : Option Request

/-- The part of `ServeHTTP` up to and including the handler invocation:
scan for the first matching route; on a match, rewrite the request and run
the handler against a fresh wrapper. -/
def dispatchPhase (routes : List Route) (acao : String) (r : Request) : ServeResult :=
  match firstMatch routes r.method r.path with
  | none => { w := newResponseWriter, invoked := none, handlerReq := none }
  | some irt =>
    let r1 := injectParams irt.2 r
    { w := applyActions acao (irt.2.handler r1) newResponseWriter,
      invoked := some irt.1, handlerReq := some r1 }

/-- The wrapper state after the dispatch scan and the synthetic OPTIONS
step, before the not-found fallback. -/
def preFallback (routes : List Route) (acao : String) (r : Request) : responseWriter :=
  let base := dispatchPhase routes acao r
  if r.method == OPTIONS then optionsRequest routes acao base.w r.path else base.w

/-- `RouteMux.ServeHTTP` (routes.go lines 152 to 212): wrap the sink, scan
and possibly run a handler, run the OPTIONS aggregation when the request
method is OPTIONS, and fall back to the standard not-found response when
nothing was written.  The final access-log line has no effect on the
response and is not modelled. -/
def ServeHTTP (routes : List Route) (acao : String) (r : Request) : ServeResult :=
  let base := dispatchPhase routes acao r
  let w2 := preFallback routes acao r
  let w3 := if w2.started then w2 else applyActions acao notFoundActions w2
  { base with w := w3 }

/-! ## Content negotiation helper -/

/-- MIME constant of routes.go. -/
def applicationJson : String := "application/json"
/-- MIME constant of routes.go, spelled exactly as the source spells it. -/
def applicationXml : String := "applicatoin/xml"
/-- MIME constant of routes.go. -/
def textXml : String := "text/xml"

/-- Which serializer a request ends up with. -/
inductive SerializedAs where
  | json
  | xml
deriving DecidableEq

/-- `ServeFormatted` (routes.go lines 329 to 341): switch on the `Accept`
header value — the JSON MIME constant serves JSON, the two XML MIME
constants serve XML, anything else serves JSON. -/
def ServeFormatted (accept : String) : SerializedAs :=
  if accept == applicationJson then SerializedAs.json
  else if accept == applicationXml || accept == textXml then SerializedAs.xml
  else SerializedAs.json

/-! ## Static file serving

The handler installed by `RouteMux.Static` computes
`filepath.Join(dir, filepath.Clean(r.URL.Path))` and hands that path to the
file-serving collaborator.  `filepath.Clean` and `filepath.Join` are
modelled from their documented purely lexical semantics (slash separator):
drop empty and dot segments, resolve dot-dot against preceding segments,
never above the root of a rooted path; `Join` concatenates and cleans. -/

/-- Whether a segment is an ordinary name (not empty, not dot, not
dot-dot). -/
def goodSeg (s : List Char) : Bool :=
  !(s == [] || s == ['.'] || s == ['.', '.'])

/-- The segment-stack pass of `filepath.Clean`: empty and dot segments are
dropped; a dot-dot segment pops a preceding ordinary segment, is dropped at
the root of a rooted path, and is kept otherwise. -/
def cleanSegsAux (rooted : Bool) (stack : List (List Char)) :
    List (List Char) → List (List Char)
  | [] => stack.reverse
  | seg :: rest =>
    if seg == [] || seg == ['.'] then cleanSegsAux rooted stack rest
    else if seg == ['.', '.'] then
      match stack with
      | [] =>
        if rooted then cleanSegsAux rooted [] rest
        else cleanSegsAux rooted [seg] rest
      | top :: stack1 =>
        if top == ['.', '.'] then cleanSegsAux rooted (seg :: stack) rest
        else cleanSegsAux rooted stack1 rest
    else cleanSegsAux rooted (seg :: stack) rest

/-- `filepath.Clean` on the character list of a path. -/
def cleanData (s : List Char) : List Char :=
  if s = [] then ['.']
  else
    let rooted := s.head? == some '/'
    let segs := cleanSegsAux rooted [] (splitOnChar '/' s)
    let out := joinWith '/' segs
    if rooted then '/' :: out
    else if out = [] then ['.'] else out

/-- Models `filepath.Clean`. -/
def filepath_Clean (s : String) : String :=
  String.mk (cleanData s.data)

/-- Models the two-argument `filepath.Join`: empty elements are skipped and
the slash-joined concatenation is cleaned. -/
def filepath_Join (a b : String) : String :=
  if a.data = [] then (if b.data = [] then "" else filepath_Clean b)
  else if b.data = [] then filepath_Clean a
  else filepath_Clean (String.mk (a.data ++ '/' :: b.data))

/-- The file path computed by the handler that `RouteMux.Static` installs
(routes.go lines 143 to 146): clean the request URL path, then join it to
the configured directory. -/
def staticFilePath (dir : String) (urlPath : String) : String :=
  filepath_Join dir (filepath_Clean urlPath)

/-- Lexical containment of a computed file path in the served root: the
path is the root itself, or extends the root below a separator and contains
no remaining dot-dot segment. -/
def withinRoot (dir result : String) : Bool :=
  result == dir ||
  ((dir.data ++ ['/']).isPrefixOf result.data &&
    (splitOnChar '/' result.data).all (fun seg => !(seg == ['.', '.'])))

/-! ## Concrete fixtures used by claim theorems and witnesses -/

/-- A handler that writes a two-byte body. -/
def okHandler : Request → List WAction := fun _ => [WAction.write (("ok").data)]

/-- The router of the end-to-end scenario: one route,
GET /user/:id([0-9]+). -/
def c1Routes : List Route :=
  (AddRoute [] GET "/user/:id([0-9]+)" okHandler).getD []

/-- Request GET /user/42 with an empty query string. -/
def c1Req42 : Request := { method := "GET", path := "/user/42", rawQuery := "" }

/-- Request GET /user/abc with an empty query string. -/
def c1ReqAbc : Request := { method := "GET", path := "/user/abc", rawQuery := "" }

/-- A router with the same GET route registered twice under the literal
pattern /x. -/
def c4Routes : List Route :=
  ((AddRoute [] GET "/x" okHandler).bind (fun rs => AddRoute rs GET "/x" okHandler)).getD []

/-- Request OPTIONS /x with an empty query string. -/
def c4Req : Request := { method := "OPTIONS", path := "/x", rawQuery := "" }

/-- A single route with the literal pattern /x and method GET, written out
as a record (its compiled pattern is the one `regexp.Compile` yields on
the pattern text /x). -/
def getSlashXRoute : Route :=
  { method := GET, regex := (regexpCompile (("/x").data)).getD Regex.eps,
    params := [], handler := fun _ => [] }

/-- A single route with the literal pattern /a and method GET. -/
def getSlashARoute : Route :=
  { method := GET, regex := (regexpCompile (("/a").data)).getD Regex.eps,
    params := [], handler := fun _ => [] }

/-- Two overlapping GET routes: /a/:x (default sub-pattern) before
/a/:y(.+). -/
def c2Routes : List Route :=
  ((AddRoute [] GET "/a/:x" okHandler).bind
    (fun rs => AddRoute rs GET "/a/:y(.+)" okHandler)).getD []

/-- Request GET /a/b, matched by both routes of `c2Routes`. -/
def c2Req : Request := { method := "GET", path := "/a/b", rawQuery := "" }

/-- Request GET /x carrying the raw query string b=2&a=1. -/
def c10Req : Request := { method := "GET", path := "/x", rawQuery := "b=2&a=1" }

/-! ## Small lemmas about the response writer -/

/-- Applying the not-found fallback leaves `started` true. -/
theorem applyActions_notFound_started (acao : String) (w : responseWriter) :
    (applyActions acao notFoundActions w).started = true := rfl

/-- Applying the not-found fallback records status 404. -/
theorem applyActions_notFound_status (acao : String) (w : responseWriter) :
    (applyActions acao notFoundActions w).status = 404 := rfl

/-- The body appended by the not-found fallback. -/
theorem applyActions_notFound_body (acao : String) (w : responseWriter) :
    (applyActions acao notFoundActions w).sink.body = w.sink.body ++ [notFoundBody] := by
  rcases w with ⟨⟨hs, sent, bd⟩, st, sz, stt⟩
  cases sent <;> rfl

/-- A single handler action keeps `started` once it is set. -/
theorem applyAction_started_mono (acao : String) (w : responseWriter) (a : WAction)
    (h : w.started = true) : (applyAction acao w a).started = true := by
  cases a <;> simp [applyAction, responseWriter.Write, responseWriter.WriteHeader, h]

/-- A handler keeps `started` once it is set. -/
theorem applyActions_started_mono (acao : String) (acts : List WAction)
    (w : responseWriter) (h : w.started = true) :
    (applyActions acao acts w).started = true := by
  induction acts generalizing w with
  | nil => exact h
  | cons a acts ih => exact ih _ (applyAction_started_mono acao w a h)

/-- A handler that leaves `started` false never wrote a body chunk. -/
theorem applyActions_body_of_not_started (acao : String) (acts : List WAction)
    (w : responseWriter) (h : (applyActions acao acts w).started = false) :
    (applyActions acao acts w).sink.body = w.sink.body := by
  induction acts generalizing w with
  | nil => rfl
  | cons a acts ih =>
    cases a with
    | write p =>
      exfalso
      have : (applyActions acao (WAction.write p :: acts) w).started = true := by
        exact applyActions_started_mono acao acts _ rfl
      simp [this] at h
    | writeHeader c =>
      exfalso
      have : (applyActions acao (WAction.writeHeader c :: acts) w).started = true := by
        exact applyActions_started_mono acao acts _ rfl
      simp [this] at h
    | setHeader k v =>
      have := ih (applyAction acao w (WAction.setHeader k v)) h
      simpa [applyAction] using this

/-- The OPTIONS aggregation always writes the status line, so it always
sets `started`. -/
theorem optionsRequest_started (routes : List Route) (acao : String)
    (w : responseWriter) (path : String) :
    (optionsRequest routes acao w path).started = true := rfl

/-- Reading back a key just set. -/
theorem headerGet_set_self (h : Header) (k v : String) :
    headerGet (headerSet h k v) k = some v := by
  induction h with
  | nil => simp [headerSet, headerGet]
  | cons kv rest ih =>
    by_cases hk : kv.1 = k
    · simp [headerSet, headerGet, hk]
    · simp [headerSet, headerGet, hk, ih]

/-! ## Claim C1 -/

/-- C1, counterexample.  Registering GET /user/:id([0-9]+) and dispatching
GET /user/42 does invoke the route's handler, but the handler does not see
a query parameter named id: the captured text is filed under the name
:id — including the colon marker — because `AddRoute` keeps the marker in
the recorded parameter name.  This refutes the claim that the sub-match is
available "under the declared parameter name, i.e. the text after the ':'
marker and before '('". -/
theorem C1_counterexample :
    (ServeHTTP c1Routes "*" c1Req42).invoked = some 0 ∧
    (ServeHTTP c1Routes "*" c1Req42).handlerReq.map
      (fun r => qGet (parseQuery r.rawQuery) ("id")) = some [] ∧
    (ServeHTTP c1Routes "*" c1Req42).handlerReq.map
      (fun r => qGet (parseQuery r.rawQuery) (":id")) = some [("42" : String)] := by
  decide

/-- C1, amended.  As the counterexample forces, the parameter name under
which a captured sub-match reaches the handler is the segment text from the
':' marker up to '(' — the marker included.  With GET /user/:id([0-9]+)
registered: the compiled parameter map holds ":id"; a request to /user/42
invokes the handler, which sees query parameter :id=42; a request to
/user/abc matches no route, no handler is invoked, and the not-found
fallback answers with status 404. -/
theorem C1_amended :
    (AddRoute [] GET "/user/:id([0-9]+)" okHandler).isSome = true ∧
    (compileTemplate "/user/:id([0-9]+)").2 = [(":id" : String)] ∧
    (ServeHTTP c1Routes "*" c1Req42).invoked = some 0 ∧
    (ServeHTTP c1Routes "*" c1Req42).handlerReq.map
      (fun r => qGet (parseQuery r.rawQuery) (":id")) = some [("42" : String)] ∧
    (ServeHTTP c1Routes "*" c1ReqAbc).invoked = none ∧
    (ServeHTTP c1Routes "*" c1ReqAbc).handlerReq = none ∧
    (ServeHTTP c1Routes "*" c1ReqAbc).w.status = 404 ∧
    (ServeHTTP c1Routes "*" c1ReqAbc).w.sink.body = [notFoundBody] := by
  decide

/-! ## Claim C8 -/

/-- C8.  The content negotiation helper does not serve XML for the XML
media type application/xml: the constant the switch compares against is
misspelled "applicatoin/xml" in the source, so an Accept header of
application/xml falls through to the JSON default, while the misspelled
string — which is not an XML media type — selects XML.  text/xml and
application/json behave as documented.  The constant's name and the
surrounding comment ("commonly used mime types") show the intent, so this
is a defect of the code, not of the claim. -/
theorem C8_accept_xml_misspelled :
    ServeFormatted ("application/xml") = SerializedAs.json ∧
    ServeFormatted ("applicatoin/xml") = SerializedAs.xml ∧
    ServeFormatted ("text/xml") = SerializedAs.xml ∧
    ServeFormatted ("application/json") = SerializedAs.json ∧
    applicationXml ≠ ("application/xml" : String) := by
  decide

/-! ## Claim C6 -/

/-- C6.  `Write` sets Content-Length and Access-Control-Allow-Origin before
delegating, so a body write delivers both headers; but `WriteHeader`
delegates the status to the sink first and only then sets the two headers,
so on a response whose header block is sent by `WriteHeader` (here: a fresh
wrapper receiving WriteHeader(200)) the delivered header snapshot contains
neither header, although the wrapper records status and `started` and the
header map holds both values afterwards.  The recording half of the claim
holds; the delivery half fails for `WriteHeader`. -/
theorem C6_writeHeader_delegates_before_setting_headers :
    ((responseWriter.Write "*" newResponseWriter (("hi").data)).started = true) ∧
    ((responseWriter.Write "*" newResponseWriter (("hi").data)).size = 2) ∧
    ((responseWriter.Write "*" newResponseWriter (("hi").data)).sink.sent =
      some (200, [("Content-Length", "2"), ("Access-Control-Allow-Origin", "*")])) ∧
    ((responseWriter.WriteHeader "*" newResponseWriter 200).started = true) ∧
    ((responseWriter.WriteHeader "*" newResponseWriter 200).status = 200) ∧
    (headerGet (responseWriter.WriteHeader "*" newResponseWriter 200).sink.headers
      ("Content-Length") = some ("0")) ∧
    (headerGet (responseWriter.WriteHeader "*" newResponseWriter 200).sink.headers
      ("Access-Control-Allow-Origin") = some ("*")) ∧
    ((responseWriter.WriteHeader "*" newResponseWriter 200).sink.sent = some (200, [])) := by
  decide

/-! ## Claim C4 -/

/-- Modelled from the claim's words, not from the source: the deduplicated,
lexicographically sorted, comma-space-joined method set. -/
def specDedupPublicValue (routes : List Route) (path : String) : String :=
  String.intercalate (", ") (sortStrings ((optionsScan routes path).dedup))

/-- C4, counterexample.  With the same GET route registered twice under a
pattern matching /x, the OPTIONS aggregation reports
"GET, GET, HEAD, HEAD, OPTIONS": the collected methods are sorted and
joined but never deduplicated, so the reported value differs from the
deduplicated set the claim describes, and that is the value an OPTIONS /x
request finds in the Public header. -/
theorem C4_counterexample :
    optionsPublicValue c4Routes ("/x") = "GET, GET, HEAD, HEAD, OPTIONS" ∧
    specDedupPublicValue c4Routes ("/x") = "GET, HEAD, OPTIONS" ∧
    optionsPublicValue c4Routes ("/x") ≠ specDedupPublicValue c4Routes ("/x") ∧
    headerGet (ServeHTTP c4Routes "*" c4Req).w.sink.headers ("Public") =
      some ("GET, GET, HEAD, HEAD, OPTIONS") := by
  decide

/-- The OPTIONS collection fold, rewritten as a flat map over the routes. -/
theorem foldl_options_step (path : String) (rs : List Route) (acc : List String) :
    rs.foldl
      (fun options rt =>
        if routeFullyMatches rt path then
          let options1 := options ++ [rt.method]
          if rt.method == GET then options1 ++ [HEAD] else options1
        else options)
      acc
    = acc ++ rs.flatMap (fun rt =>
        if routeFullyMatches rt path then
          rt.method :: (if rt.method == GET then [HEAD] else []) else []) := by
  induction rs generalizing acc with
  | nil => simp
  | cons rt rest ih =>
    simp only [List.foldl_cons, List.flatMap_cons]
    rw [ih]
    by_cases h : routeFullyMatches rt path
    · by_cases hg : rt.method == GET
      · simp [h, hg, List.append_assoc]
      · simp [h, hg, List.append_assoc]
    · simp [h]

/-- C4, amended.  The Public header reports the lexicographically sorted,
comma-space-joined list — duplicates retained, no deduplication — of
OPTIONS plus the method of every route whose pattern fully matches the
path, with HEAD contributed by every matching GET route; when exactly one
route is registered, it is a GET route and it matches the path, the value
is exactly "GET, HEAD, OPTIONS". -/
theorem C4_amended (routes : List Route) (path acao : String) (w : responseWriter) :
    headerGet (optionsRequest routes acao w path).sink.headers ("Public") =
      some (optionsPublicValue routes path) ∧
    optionsPublicValue routes path =
      String.intercalate (", ") (sortStrings
        (OPTIONS :: routes.flatMap (fun rt =>
          if routeFullyMatches rt path then
            rt.method :: (if rt.method == GET then [HEAD] else []) else []))) ∧
    (∀ rt, routes = [rt] → rt.method = GET → routeFullyMatches rt path = true →
      optionsPublicValue routes path = "GET, HEAD, OPTIONS") := by
  refine ⟨headerGet_set_self _ _ _, ?_, ?_⟩
  · unfold optionsPublicValue optionsScan
    rw [foldl_options_step]
    rfl
  · intro rt hr hg hm
    subst hr
    unfold optionsPublicValue optionsScan
    have hgb : (rt.method == GET) = true := by simp [hg]
    simp only [List.foldl_cons, List.foldl_nil, hm, if_true, hgb]
    rw [hg]
    decide

/-- C4, witness for the amended theorem at a concrete single-GET router. -/
theorem C4_amended_witness :
    optionsPublicValue [getSlashXRoute] ("/x") = "GET, HEAD, OPTIONS" ∧
    headerGet (optionsRequest [getSlashXRoute] "*" newResponseWriter ("/x")).sink.headers
      ("Public") = some ("GET, HEAD, OPTIONS") := by
  have h := C4_amended [getSlashXRoute] ("/x") "*" newResponseWriter
  have hv := h.2.2 getSlashXRoute rfl rfl (by decide)
  exact ⟨hv, by rw [h.1, hv]⟩

/-! ## Claim C2 -/

/-- Whether the route at index `i` satisfies the dispatch scan's conditions
for the given method and path (method equality plus full pattern match). -/
def satAt (routes : List Route) (method path : String) (i : Nat) : Bool :=
  match routes[i]? with
  | some rt => rt.method == method && routeFullyMatches rt path
  | none => false

theorem satAt_cons_zero (rt : Route) (rest : List Route) (m p : String) :
    satAt (rt :: rest) m p 0 = (rt.method == m && routeFullyMatches rt p) := by
  simp [satAt]

theorem satAt_cons_succ (rt : Route) (rest : List Route) (m p : String) (i : Nat) :
    satAt (rt :: rest) m p (i + 1) = satAt rest m p i := by
  simp [satAt]

/-- The scan returns the least satisfying index: if any index satisfies,
the scan succeeds at a satisfying index below it and below every other
satisfying index. -/
theorem firstMatch_least (routes : List Route) (method path : String) (i : Nat)
    (h : satAt routes method path i = true) :
    ∃ k rt, firstMatch routes method path = some (k, rt) ∧
      satAt routes method path k = true ∧ k ≤ i ∧
      ∀ l, satAt routes method path l = true → k ≤ l := by
  induction routes generalizing i with
  | nil => simp [satAt] at h
  | cons rt rest ih =>
    by_cases hh : (rt.method == method && routeFullyMatches rt path) = true
    · exact ⟨0, rt, by simp [firstMatch, hh], by simp [satAt_cons_zero, hh],
        Nat.zero_le _, fun l _ => Nat.zero_le _⟩
    · cases i with
      | zero => rw [satAt_cons_zero] at h; exact absurd h hh
      | succ i1 =>
        rw [satAt_cons_succ] at h
        obtain ⟨k, rt1, hfm, hsat, hki, hleast⟩ := ih i1 h
        refine ⟨k + 1, rt1, ?_, ?_, Nat.succ_le_succ hki, ?_⟩
        · simp [firstMatch, hh, hfm]
        · rw [satAt_cons_succ]; exact hsat
        · intro l hl
          cases l with
          | zero => rw [satAt_cons_zero] at hl; exact absurd hl hh
          | succ l1 =>
            rw [satAt_cons_succ] at hl
            exact Nat.succ_le_succ (hleast l1 hl)

/-- C2.  When two registered routes both carry the request's method and
both fully match its path, the dispatcher invokes the handler of the
earliest-registered satisfying route: the invoked index is a satisfying
index, bounded by the first of the two given indices and by every
satisfying index; the scan records at most one invocation. -/
theorem C2_first_match_wins (routes : List Route) (acao : String) (r : Request)
    (i j : Nat) (hi : satAt routes r.method r.path i = true)
    (_hj : satAt routes r.method r.path j = true) (_hij : i < j) :
    ∃ k, (ServeHTTP routes acao r).invoked = some k ∧
      satAt routes r.method r.path k = true ∧ k ≤ i ∧
      ∀ l, satAt routes r.method r.path l = true → k ≤ l := by
  obtain ⟨k, rt, hfm, hs, hk, hl⟩ := firstMatch_least routes r.method r.path i hi
  exact ⟨k, by simp [ServeHTTP, dispatchPhase, hfm], hs, hk, hl⟩

/-- C2, witness: with two overlapping GET routes both matching /a/b, the
first-registered route's handler (index 0) is the one invoked. -/
theorem C2_witness : (ServeHTTP c2Routes "*" c2Req).invoked = some 0 := by
  obtain ⟨k, hinv, _, hk, _⟩ :=
    C2_first_match_wins c2Routes "*" c2Req 0 1 (by decide) (by decide) (by decide)
  have hk0 : k = 0 := Nat.le_zero.mp hk
  rw [hk0] at hinv
  exact hinv

/-! ## Claim C3 -/

/-- C3.  Dispatch never leaves a request unresolved: after `ServeHTTP`
completes, the wrapper's `started` flag is true; and whenever neither the
handler phase nor the OPTIONS aggregation wrote anything, the standard
not-found response (status 404, the standard body) is what resolved the
request. -/
theorem C3_dispatch_always_resolves (routes : List Route) (acao : String) (r : Request) :
    (ServeHTTP routes acao r).w.started = true ∧
    ((preFallback routes acao r).started = false →
      (ServeHTTP routes acao r).w.status = 404 ∧
      (ServeHTTP routes acao r).w.sink.body = [notFoundBody]) := by
  constructor
  · by_cases h : (preFallback routes acao r).started
    · simp [ServeHTTP, h]
    · simp [ServeHTTP, h, applyActions_notFound_started]
  · intro h
    have hbody : (preFallback routes acao r).sink.body = [] := by
      unfold preFallback at h ⊢
      by_cases hop : (r.method == OPTIONS) = true
      · rw [if_pos hop, optionsRequest_started] at h
        exact Bool.noConfusion h
      · rw [if_neg hop] at h ⊢
        unfold dispatchPhase at h ⊢
        cases hfm : firstMatch routes r.method r.path with
        | none => simp [newResponseWriter]
        | some irt =>
          rw [hfm] at h
          dsimp only at h ⊢
          rw [applyActions_body_of_not_started _ _ _ h]
          rfl
    constructor
    · simp [ServeHTTP, h, applyActions_notFound_status]
    · simp [ServeHTTP, h, applyActions_notFound_body, hbody]

/-- C3, witness at a concrete unmatched request. -/
theorem C3_witness :
    (ServeHTTP [] "*" c1ReqAbc).w.started = true ∧
    (ServeHTTP [] "*" c1ReqAbc).w.status = 404 ∧
    (ServeHTTP [] "*" c1ReqAbc).w.sink.body = [notFoundBody] := by
  have h := C3_dispatch_always_resolves [] "*" c1ReqAbc
  have h2 := h.2 (by decide)
  exact ⟨h.1, h2.1, h2.2⟩

/-! ## Claim C5 -/

/-- If no route's pattern fully matches the path, the method-aware scan
finds nothing either. -/
theorem firstMatch_none_of_no_match (routes : List Route) (method path : String)
    (hno : ∀ rt ∈ routes, routeFullyMatches rt path = false) :
    firstMatch routes method path = none := by
  induction routes with
  | nil => rfl
  | cons rt rest ih =>
    have h0 : routeFullyMatches rt path = false := hno rt (by simp)
    have hrest := ih (fun rt1 h1 => hno rt1 (by simp [h1]))
    simp [firstMatch, h0, hrest]

/-- If no route's pattern fully matches the path, the OPTIONS collection is
just the unconditional OPTIONS entry. -/
theorem optionsScan_no_match (routes : List Route) (path : String)
    (hno : ∀ rt ∈ routes, routeFullyMatches rt path = false) :
    optionsScan routes path = [OPTIONS] := by
  unfold optionsScan
  rw [foldl_options_step]
  have hnil : routes.flatMap (fun rt =>
      if routeFullyMatches rt path then
        rt.method :: (if rt.method == GET then [HEAD] else []) else []) = [] := by
    induction routes with
    | nil => rfl
    | cons rt rest ih =>
      have h0 : routeFullyMatches rt path = false := hno rt (by simp)
      have hrest := ih (fun rt1 h1 => hno rt1 (List.mem_cons_of_mem _ h1))
      rw [List.flatMap_cons, h0, hrest]
      simp
  rw [hnil]
  rfl

/-- C5.  An OPTIONS request whose path fully matches no registered route of
any method is answered with status 200 (both as recorded by the wrapper
and as sent by the sink), an empty body, a Public header holding exactly
"OPTIONS", and no handler invocation. -/
theorem C5_options_minimum_set (routes : List Route) (acao : String) (r : Request)
    (hm : r.method = OPTIONS)
    (hno : ∀ rt ∈ routes, routeFullyMatches rt r.path = false) :
    (ServeHTTP routes acao r).w.status = 200 ∧
    (ServeHTTP routes acao r).w.sink.body = [] ∧
    (ServeHTTP routes acao r).w.sink.sent.map Prod.fst = some 200 ∧
    headerGet (ServeHTTP routes acao r).w.sink.headers ("Public") = some ("OPTIONS") ∧
    (ServeHTTP routes acao r).invoked = none := by
  have hfm : firstMatch routes r.method r.path = none :=
    firstMatch_none_of_no_match routes r.method r.path hno
  have hpv : optionsPublicValue routes r.path = "OPTIONS" := by
    unfold optionsPublicValue
    rw [optionsScan_no_match routes r.path hno]
    decide
  have hop : (r.method == OPTIONS) = true := by simp [hm]
  refine ⟨?_, ?_, ?_, ?_, ?_⟩ <;>
    simp [ServeHTTP, preFallback, dispatchPhase, hfm, hop, optionsRequest,
      optionsRequest_started, responseWriter.WriteHeader, Sink.writeHeader,
      newResponseWriter, hpv, headerGet_set_self, headerSet, headerGet]

/-- C5, witness: the empty router answers OPTIONS /zz as the theorem
states. -/
theorem C5_witness :
    (ServeHTTP [] "*" { method := "OPTIONS", path := "/zz", rawQuery := "" }).w.status = 200 ∧
    headerGet (ServeHTTP [] "*"
      { method := "OPTIONS", path := "/zz", rawQuery := "" }).w.sink.headers ("Public") =
      some ("OPTIONS") := by
  have h := C5_options_minimum_set [] "*"
    { method := "OPTIONS", path := "/zz", rawQuery := "" } rfl (by simp)
  exact ⟨h.1, h.2.2.2.1⟩

/-! ## Claim C7 -/

/-- A found match is never longer than the searched text. -/
theorem regexFind_length_le (r : Regex) (s m : List Char) (subs : List (List Char))
    (h : regexFind r s = some (m, subs)) : m.length ≤ s.length := by
  induction s with
  | nil =>
    cases hrun : Regex.run r [] with
    | nil => simp [regexFind, hrun] at h
    | cons gr tl =>
      simp [regexFind, hrun] at h
      rw [← h.1]
  | cons c cs ih =>
    cases hrun : Regex.run r (c :: cs) with
    | nil =>
      simp only [regexFind, hrun] at h
      exact Nat.le_trans (ih h) (Nat.le_succ _)
    | cons gr tl =>
      simp only [regexFind, hrun, Option.some.injEq, Prod.mk.injEq] at h
      rw [← h.1]
      calc ((c :: cs).take ((c :: cs).length - gr.2.length)).length
          ≤ (c :: cs).length - gr.2.length := by
            rw [List.length_take]; exact Nat.min_le_left _ _
        _ ≤ (c :: cs).length := Nat.sub_le _ _

/-- A found match whose length equals the text's length is the whole
text. -/
theorem regexFind_eq_of_full_length (r : Regex) (s m : List Char)
    (subs : List (List Char)) (h : regexFind r s = some (m, subs))
    (hl : m.length = s.length) : m = s := by
  induction s with
  | nil =>
    cases hrun : Regex.run r [] with
    | nil => simp [regexFind, hrun] at h
    | cons gr tl =>
      simp [regexFind, hrun] at h
      exact h.1
  | cons c cs ih =>
    cases hrun : Regex.run r (c :: cs) with
    | nil =>
      simp only [regexFind, hrun] at h
      have := regexFind_length_le r cs m subs h
      rw [hl] at this
      exact absurd this (by simp [Nat.lt_irrefl, Nat.not_le, Nat.lt_succ_self])
    | cons gr tl =>
      simp only [regexFind, hrun, Option.some.injEq, Prod.mk.injEq] at h
      rw [← h.1] at hl ⊢
      rw [List.length_take] at hl
      have hle : (c :: cs).length ≤ (c :: cs).length - gr.2.length := by
        rcases Nat.le_total ((c :: cs).length - gr.2.length) (c :: cs).length with h1 | h1
        · rw [Nat.min_eq_left h1] at hl; omega
        · exact h1
      exact List.take_of_length_le hle

/-- C7.  A route counts as matching exactly when the regular expression's
found match is the entire request path; a found match of any other length
(a proper prefix, suffix or interior substring) makes the route
non-matching both for the dispatch scan (any method) and for the OPTIONS
aggregation. -/
theorem C7_full_length_match_required (rt : Route) (path : String) :
    (routeFullyMatches rt path = true ↔
      ∃ subs, regexFind rt.regex path.data = some (path.data, subs)) ∧
    (∀ m subs, regexFind rt.regex path.data = some (m, subs) →
      m.length ≠ path.data.length →
      (∀ method, firstMatch [rt] method path = none) ∧
      optionsScan [rt] path = [OPTIONS]) := by
  constructor
  · constructor
    · intro h
      cases hrun : regexFind rt.regex path.data with
      | none =>
        simp only [routeFullyMatches, hrun] at h
        exact Bool.noConfusion h
      | some m =>
        obtain ⟨m1, m2⟩ := m
        simp only [routeFullyMatches, hrun] at h
        have hl : m1.length = path.data.length := by simpa using h
        have hm : m1 = path.data :=
          regexFind_eq_of_full_length rt.regex path.data m1 m2 hrun hl
        exact ⟨m2, by rw [hm]⟩
    · rintro ⟨subs, h⟩
      unfold routeFullyMatches
      rw [h]
      simp
  · intro m subs h hm
    have hfull : routeFullyMatches rt path = false := by
      unfold routeFullyMatches
      rw [h]
      simpa using hm
    refine ⟨fun method => ?_, ?_⟩
    · simp [firstMatch, hfull]
    · exact optionsScan_no_match [rt] path (by simpa using hfull)

/-- C7, witness: the literal pattern /a finds the match /a inside the path
/ab, but the length guard rejects the route in both scans. -/
theorem C7_witness :
    firstMatch [getSlashARoute] GET ("/ab") = none ∧
    optionsScan [getSlashARoute] ("/ab") = [OPTIONS] := by
  have h := (C7_full_length_match_required getSlashARoute ("/ab")).2
    ['/', 'a'] [] (by decide) (by decide)
  exact ⟨h.1 GET, h.2⟩

/-! ## Claim C10 -/

/-- C10.  Whenever a route matches and its pattern captures nothing, the
handler still receives the request with its raw query string replaced by
the canonical re-encoding of the parsed query values (sorted keys,
re-applied escaping) — the rewrite happens on every match, not only when
parameters are injected. -/
theorem C10_query_rewritten_even_without_params (routes : List Route)
    (acao : String) (r : Request) (i : Nat) (rt : Route)
    (hfm : firstMatch routes r.method r.path = some (i, rt))
    (hsub : submatchesOf rt r.path = []) :
    (ServeHTTP routes acao r).handlerReq =
      some { r with rawQuery := encodeQ (parseQuery r.rawQuery) } := by
  simp [ServeHTTP, dispatchPhase, hfm, injectParams, hsub]

/-- C10, witness: a parameterless route matching GET /x?b=2&a=1 hands the
handler the canonicalized query a=1&b=2, which differs from the raw query
on the wire. -/
theorem C10_witness :
    (ServeHTTP [getSlashXRoute] "*" c10Req).handlerReq.map Request.rawQuery =
      some ("a=1&b=2") ∧
    ("a=1&b=2" : String) ≠ c10Req.rawQuery := by
  refine ⟨?_, by decide⟩
  have h := C10_query_rewritten_even_without_params [getSlashXRoute] "*" c10Req
    0 getSlashXRoute rfl (by decide)
  rw [h]
  decide

/-! ## Claim C9: lemmas about splitting, joining and cleaning paths -/

theorem splitOnChar_slash_cons (t : List Char) :
    splitOnChar '/' ('/' :: t) = [] :: splitOnChar '/' t := by
  simp [splitOnChar, splitOnCharAux]

theorem splitOnCharAux_no_sep_append (x : List Char) (hx : '/' ∉ x) :
    ∀ (cur t : List Char),
      splitOnCharAux '/' cur (x ++ '/' :: t) =
        (cur.reverse ++ x) :: splitOnCharAux '/' [] t := by
  induction x with
  | nil => intro cur t; simp [splitOnCharAux]
  | cons c x ih =>
    intro cur t
    have hc : ¬(c = '/') := fun hh => hx (by simp [hh])
    have hx1 : '/' ∉ x := fun hh => hx (by simp [hh])
    calc splitOnCharAux '/' cur ((c :: x) ++ '/' :: t)
        = splitOnCharAux '/' (c :: cur) (x ++ '/' :: t) := by
          simp only [List.cons_append, splitOnCharAux]
          rw [if_neg hc]
          rfl
      _ = ((c :: cur).reverse ++ x) :: splitOnCharAux '/' [] t := ih hx1 (c :: cur) t
      _ = (cur.reverse ++ c :: x) :: splitOnCharAux '/' [] t := by simp

theorem splitOnCharAux_no_sep (x : List Char) (hx : '/' ∉ x) :
    ∀ cur, splitOnCharAux '/' cur x = [cur.reverse ++ x] := by
  induction x with
  | nil => intro cur; simp [splitOnCharAux]
  | cons c x ih =>
    intro cur
    have hc : ¬(c = '/') := fun hh => hx (by simp [hh])
    have hx1 : '/' ∉ x := fun hh => hx (by simp [hh])
    calc splitOnCharAux '/' cur (c :: x)
        = splitOnCharAux '/' (c :: cur) x := by
          simp only [splitOnCharAux]
          rw [if_neg hc]
      _ = [(c :: cur).reverse ++ x] := ih hx1 (c :: cur)
      _ = [cur.reverse ++ c :: x] := by simp

theorem splitOnChar_join_append (ds : List (List Char)) (t : List Char)
    (hne : ds ≠ []) (hsf : ∀ s ∈ ds, '/' ∉ s) :
    splitOnChar '/' (joinWith '/' ds ++ '/' :: t) = ds ++ splitOnChar '/' t := by
  induction ds with
  | nil => exact absurd rfl hne
  | cons x ds ih =>
    cases ds with
    | nil =>
      show splitOnCharAux '/' [] (x ++ '/' :: t) = [x] ++ splitOnChar '/' t
      rw [splitOnCharAux_no_sep_append x (hsf x (by simp)) [] t]
      rfl
    | cons y ds1 =>
      show splitOnCharAux '/' [] ((x ++ '/' :: joinWith '/' (y :: ds1)) ++ '/' :: t) = _
      rw [List.append_assoc, List.cons_append]
      rw [splitOnCharAux_no_sep_append x (hsf x (by simp)) []
        (joinWith '/' (y :: ds1) ++ '/' :: t)]
      have ih1 := ih (by simp) (fun s hs => hsf s (List.mem_cons_of_mem _ hs))
      rw [show splitOnCharAux '/' [] (joinWith '/' (y :: ds1) ++ '/' :: t) =
        splitOnChar '/' (joinWith '/' (y :: ds1) ++ '/' :: t) from rfl, ih1]
      rfl

theorem splitOnChar_join (ds : List (List Char)) (hne : ds ≠ [])
    (hsf : ∀ s ∈ ds, '/' ∉ s) :
    splitOnChar '/' (joinWith '/' ds) = ds := by
  induction ds with
  | nil => exact absurd rfl hne
  | cons x ds ih =>
    cases ds with
    | nil =>
      show splitOnCharAux '/' [] x = [x]
      rw [splitOnCharAux_no_sep x (hsf x (by simp)) []]
      rfl
    | cons y ds1 =>
      show splitOnCharAux '/' [] (x ++ '/' :: joinWith '/' (y :: ds1)) = _
      rw [splitOnCharAux_no_sep_append x (hsf x (by simp)) [] (joinWith '/' (y :: ds1))]
      have ih1 := ih (by simp) (fun s hs => hsf s (List.mem_cons_of_mem _ hs))
      rw [show splitOnCharAux '/' [] (joinWith '/' (y :: ds1)) =
        splitOnChar '/' (joinWith '/' (y :: ds1)) from rfl, ih1]
      rfl

theorem splitOnCharAux_mem_no_sep (s : List Char) :
    ∀ cur, '/' ∉ cur → ∀ seg ∈ splitOnCharAux '/' cur s, '/' ∉ seg := by
  induction s with
  | nil =>
    intro cur hcur seg hseg
    simp only [splitOnCharAux, List.mem_singleton] at hseg
    subst hseg
    simpa using fun h => hcur (List.mem_reverse.mp h)
  | cons c cs ih =>
    intro cur hcur seg hseg
    by_cases hc : c = '/'
    · rw [show splitOnCharAux '/' cur (c :: cs) = cur.reverse :: splitOnCharAux '/' [] cs by
        simp only [splitOnCharAux]; rw [if_pos hc]] at hseg
      rcases List.mem_cons.mp hseg with h | h
      · subst h; simpa using fun h1 => hcur (List.mem_reverse.mp h1)
      · exact ih [] (by simp) seg h
    · rw [show splitOnCharAux '/' cur (c :: cs) = splitOnCharAux '/' (c :: cur) cs by
        simp only [splitOnCharAux]; rw [if_neg hc]] at hseg
      exact ih (c :: cur)
        (by intro h1; rcases List.mem_cons.mp h1 with h2 | h2
            · exact hc h2.symm
            · exact hcur h2)
        seg hseg

theorem splitOnChar_mem_no_sep (s : List Char) (seg : List Char)
    (h : seg ∈ splitOnChar '/' s) : '/' ∉ seg :=
  splitOnCharAux_mem_no_sep s [] (by simp) seg h

theorem goodSeg_eq_true_iff (s : List Char) :
    goodSeg s = true ↔ s ≠ [] ∧ s ≠ ['.'] ∧ s ≠ ['.', '.'] := by
  simp [goodSeg, and_assoc]

/-- The stack pass of `Clean` on a rooted path only ever keeps ordinary,
separator-free segments. -/
theorem cleanSegsAux_rooted_good (segs : List (List Char)) :
    ∀ stack, (∀ x ∈ stack, goodSeg x = true ∧ '/' ∉ x) →
      (∀ x ∈ segs, '/' ∉ x) →
      ∀ x ∈ cleanSegsAux true stack segs, goodSeg x = true ∧ '/' ∉ x := by
  induction segs with
  | nil =>
    intro stack hst _ x hx
    simp only [cleanSegsAux] at hx
    exact hst x (List.mem_reverse.mp hx)
  | cons seg rest ih =>
    intro stack hst hsf x hx
    have hsfrest : ∀ x ∈ rest, '/' ∉ x := fun y hy => hsf y (List.mem_cons_of_mem _ hy)
    by_cases h1 : (seg == [] || seg == ['.']) = true
    · rw [show cleanSegsAux true stack (seg :: rest) = cleanSegsAux true stack rest by
        simp only [cleanSegsAux]; rw [if_pos h1]] at hx
      exact ih stack hst hsfrest x hx
    · by_cases h2 : (seg == ['.', '.']) = true
      · cases stack with
        | nil =>
          rw [show cleanSegsAux true [] (seg :: rest) = cleanSegsAux true [] rest by
            simp only [cleanSegsAux]; rw [if_neg h1, if_pos h2]; simp] at hx
          exact ih [] (by simp) hsfrest x hx
        | cons top st1 =>
          have htop := hst top (by simp)
          have htopne : (top == ['.', '.']) = false := by
            have hg := (goodSeg_eq_true_iff top).mp htop.1
            simp [hg.2.2]
          rw [show cleanSegsAux true (top :: st1) (seg :: rest) =
              cleanSegsAux true st1 rest by
            simp only [cleanSegsAux]; rw [if_neg h1, if_pos h2, htopne]; rfl] at hx
          exact ih st1 (fun y hy => hst y (List.mem_cons_of_mem _ hy)) hsfrest x hx
      · have hgood : goodSeg seg = true := by
          rw [goodSeg_eq_true_iff]
          refine ⟨?_, ?_, ?_⟩
          · intro hh; exact h1 (by simp [hh])
          · intro hh; exact h1 (by simp [hh])
          · intro hh; exact h2 (by simp [hh])
        rw [show cleanSegsAux true stack (seg :: rest) =
            cleanSegsAux true (seg :: stack) rest by
          simp only [cleanSegsAux]; rw [if_neg h1, if_neg h2]] at hx
        refine ih (seg :: stack) ?_ hsfrest x hx
        intro y hy
        rcases List.mem_cons.mp hy with h3 | h3
        · subst h3; exact ⟨hgood, hsf y (by simp)⟩
        · exact hst y h3

/-- Ordinary segments are pushed through unchanged by the stack pass. -/
theorem cleanSegsAux_push_all (ds : List (List Char)) (rooted : Bool) :
    ∀ stack rest, (∀ x ∈ ds, goodSeg x = true) →
      cleanSegsAux rooted stack (ds ++ rest) =
        cleanSegsAux rooted (ds.reverse ++ stack) rest := by
  induction ds with
  | nil => intro stack rest _; simp
  | cons seg ds ih =>
    intro stack rest hg
    have hseg := (goodSeg_eq_true_iff seg).mp (hg seg (by simp))
    have h1 : ¬((seg == [] || seg == ['.']) = true) := by
      simp [hseg.1, hseg.2.1]
    have h2 : ¬((seg == ['.', '.']) = true) := by simp [hseg.2.2]
    rw [List.cons_append]
    rw [show cleanSegsAux rooted stack (seg :: (ds ++ rest)) =
        cleanSegsAux rooted (seg :: stack) (ds ++ rest) by
      simp only [cleanSegsAux]; rw [if_neg h1, if_neg h2]]
    rw [ih (seg :: stack) rest (fun x hx => hg x (List.mem_cons_of_mem _ hx))]
    simp

/-- Ordinary segments pushed onto the stack with nothing after them. -/
theorem cleanSegsAux_push_all_nil (ds : List (List Char)) (rooted : Bool)
    (stack : List (List Char)) (hg : ∀ x ∈ ds, goodSeg x = true) :
    cleanSegsAux rooted stack ds = stack.reverse ++ ds := by
  have h := cleanSegsAux_push_all ds rooted stack [] hg
  rw [List.append_nil] at h
  rw [h]
  show (ds.reverse ++ stack).reverse = _
  simp

/-- Empty segments are skipped by the stack pass. -/
theorem cleanSegsAux_skip_nil (rooted : Bool) (stack : List (List Char))
    (rest : List (List Char)) :
    cleanSegsAux rooted stack ([] :: rest) = cleanSegsAux rooted stack rest := by
  simp only [cleanSegsAux]
  rw [if_pos (by simp)]

/-- `Clean` of a rooted path, written through the stack pass. -/
theorem cleanData_rooted (t : List Char) :
    cleanData ('/' :: t) =
      '/' :: joinWith '/' (cleanSegsAux true [] (splitOnChar '/' ('/' :: t))) := by
  unfold cleanData
  rw [if_neg (by simp)]
  simp

theorem joinWith_append (ds qs : List (List Char)) (hds : ds ≠ []) (hqs : qs ≠ []) :
    joinWith '/' (ds ++ qs) = joinWith '/' ds ++ '/' :: joinWith '/' qs := by
  induction ds with
  | nil => exact absurd rfl hds
  | cons x ds ih =>
    cases ds with
    | nil =>
      cases qs with
      | nil => exact absurd rfl hqs
      | cons y qs1 => simp [joinWith]
    | cons z ds1 =>
      have h1 : joinWith '/' ((x :: z :: ds1) ++ qs) =
          x ++ '/' :: joinWith '/' ((z :: ds1) ++ qs) := rfl
      rw [h1, ih (by simp)]
      simp [joinWith, List.append_assoc]

theorem isPrefixOf_append_self (a b : List Char) : a.isPrefixOf (a ++ b) = true := by
  induction a with
  | nil => simp [List.isPrefixOf]
  | cons c a ih => simp [List.isPrefixOf, ih]

/-- C9.  The file path computed by the handler installed by `Static`
never escapes the configured root: for every request URL path beginning
with a slash — dot-dot segments included — and every well-formed absolute
root directory (written as a slash-joined list of ordinary, separator-free
segments), cleaning the request path and joining it to the root yields
either the root itself or a path strictly below it with no dot-dot segment
left. -/
theorem C9_static_path_stays_in_root (dir p : String) (ds : List (List Char))
    (hdir : dir.data = '/' :: joinWith '/' ds) (hne : ds ≠ [])
    (hgood : ∀ s ∈ ds, goodSeg s = true ∧ '/' ∉ s)
    (hp : p.data.head? = some '/') :
    withinRoot dir (staticFilePath dir p) = true := by
  obtain ⟨t, hpt⟩ : ∃ t, p.data = '/' :: t := by
    cases hd : p.data with
    | nil => rw [hd] at hp; simp at hp
    | cons c t =>
      rw [hd] at hp
      simp at hp
      exact ⟨t, by rw [hp]⟩
  obtain ⟨qs, hq, hqgood⟩ :
      ∃ qs, (filepath_Clean p).data = '/' :: joinWith '/' qs ∧
        ∀ x ∈ qs, goodSeg x = true ∧ '/' ∉ x := by
    refine ⟨cleanSegsAux true [] (splitOnChar '/' ('/' :: t)), ?_, ?_⟩
    · show cleanData p.data = _
      rw [hpt, cleanData_rooted]
    · exact cleanSegsAux_rooted_good _ [] (by simp)
        (fun x hx => splitOnChar_mem_no_sep _ x hx)
  have hdirne : ¬(dir.data = []) := by rw [hdir]; simp
  have hqne : ¬((filepath_Clean p).data = []) := by rw [hq]; simp
  have hstat : staticFilePath dir p =
      filepath_Clean (String.mk (dir.data ++ '/' :: (filepath_Clean p).data)) := by
    unfold staticFilePath filepath_Join
    rw [if_neg hdirne, if_neg hqne]
  have hres : staticFilePath dir p =
      String.mk (cleanData (dir.data ++ '/' :: (filepath_Clean p).data)) := by
    rw [hstat]
    rfl
  have hcd : cleanData (dir.data ++ '/' :: (filepath_Clean p).data) =
      '/' :: joinWith '/' (cleanSegsAux true []
        ([] :: (ds ++ [] :: splitOnChar '/' (joinWith '/' qs)))) := by
    have e1 : dir.data ++ '/' :: (filepath_Clean p).data =
        '/' :: (joinWith '/' ds ++ '/' :: '/' :: joinWith '/' qs) := by
      rw [hdir, hq]
      rfl
    rw [e1, cleanData_rooted]
    rw [splitOnChar_slash_cons,
      splitOnChar_join_append ds ('/' :: joinWith '/' qs) hne
        (fun s hs => (hgood s hs).2),
      splitOnChar_slash_cons]
  cases qs with
  | nil =>
    have hsp : splitOnChar '/' (joinWith '/' ([] : List (List Char))) = [[]] := rfl
    rw [hsp] at hcd
    have hstack : cleanSegsAux true [] ([] :: (ds ++ [] :: [[]])) = ds := by
      rw [cleanSegsAux_skip_nil]
      rw [cleanSegsAux_push_all ds true [] ([] :: [[]]) (fun x hx => (hgood x hx).1)]
      rw [cleanSegsAux_skip_nil, cleanSegsAux_skip_nil]
      show (ds.reverse ++ []).reverse = ds
      simp
    rw [hstack] at hcd
    have hfinal : staticFilePath dir p = dir := by
      rw [hres, hcd, ← hdir]
    rw [hfinal]
    simp [withinRoot]
  | cons q0 qs1 =>
    have hQne : (q0 :: qs1 : List (List Char)) ≠ [] := by simp
    have hQsf : ∀ s ∈ (q0 :: qs1), '/' ∉ s := fun s hs => (hqgood s hs).2
    have hsp : splitOnChar '/' (joinWith '/' (q0 :: qs1)) = q0 :: qs1 :=
      splitOnChar_join _ hQne hQsf
    rw [hsp] at hcd
    have hstack : cleanSegsAux true [] ([] :: (ds ++ [] :: (q0 :: qs1))) =
        ds ++ (q0 :: qs1) := by
      rw [cleanSegsAux_skip_nil]
      rw [cleanSegsAux_push_all ds true [] ([] :: (q0 :: qs1))
        (fun x hx => (hgood x hx).1)]
      rw [cleanSegsAux_skip_nil]
      rw [cleanSegsAux_push_all_nil (q0 :: qs1) true (ds.reverse ++ [])
        (fun x hx => (hqgood x hx).1)]
      simp
    rw [hstack] at hcd
    have hjoin : joinWith '/' (ds ++ (q0 :: qs1)) =
        joinWith '/' ds ++ '/' :: joinWith '/' (q0 :: qs1) :=
      joinWith_append ds (q0 :: qs1) hne hQne
    have hresdata : (staticFilePath dir p).data =
        dir.data ++ '/' :: joinWith '/' (q0 :: qs1) := by
      rw [hres]
      show cleanData (dir.data ++ '/' :: (filepath_Clean p).data) = _
      rw [hcd, hjoin, hdir]
      rfl
    have hpre : ((dir.data ++ ['/']).isPrefixOf (staticFilePath dir p).data) = true := by
      rw [hresdata]
      have e3 : dir.data ++ '/' :: joinWith '/' (q0 :: qs1) =
          (dir.data ++ ['/']) ++ joinWith '/' (q0 :: qs1) := by simp
      rw [e3]
      exact isPrefixOf_append_self _ _
    have hsf2 : ∀ s ∈ ds ++ (q0 :: qs1), '/' ∉ s := by
      intro s hs
      rcases List.mem_append.mp hs with h | h
      · exact (hgood s h).2
      · exact (hqgood s h).2
    have hall : ((splitOnChar '/' (staticFilePath dir p).data).all
        (fun seg => !(seg == ['.', '.']))) = true := by
      rw [hresdata]
      have e2 : dir.data ++ '/' :: joinWith '/' (q0 :: qs1) =
          '/' :: joinWith '/' (ds ++ (q0 :: qs1)) := by
        rw [hdir, hjoin]
        rfl
      rw [e2, splitOnChar_slash_cons,
        splitOnChar_join (ds ++ (q0 :: qs1)) (by simp) hsf2]
      simp only [List.all_eq_true]
      intro x hx
      rcases List.mem_cons.mp hx with h | h
      · subst h; decide
      · rcases List.mem_append.mp h with h2 | h2
        · have h3 := (goodSeg_eq_true_iff x).mp (hgood x h2).1
          simp [h3.2.2]
        · have h3 := (goodSeg_eq_true_iff x).mp (hqgood x h2).1
          simp [h3.2.2]
    unfold withinRoot
    rw [hpre, hall]
    simp

/-- C9, witness: the root /srv/public and the traversal attempt
/files/../../etc/passwd, which cleans to /etc/passwd and joins to
/srv/public/etc/passwd — inside the root. -/
theorem C9_witness :
    withinRoot "/srv/public" (staticFilePath "/srv/public" "/files/../../etc/passwd") = true ∧
    staticFilePath "/srv/public" "/files/../../etc/passwd" = "/srv/public/etc/passwd" := by
  refine ⟨?_, by decide⟩
  exact C9_static_path_stays_in_root "/srv/public" "/files/../../etc/passwd"
    [("srv").data, ("public").data] (by decide) (by decide) (by decide) (by decide)

end Routes
